import Mathlib

/-!
Verification of the macOS Contacts MCP server core (`src/index.js`) against
its design specification.  The development shallowly embeds the
JavaScript functions that the claims concern: the tab/newline delimited
record parser `parseContactsFromDelimitedData`, the in-memory search
predicate `matchesQuery`, the birthday-window predicate
`isUpcomingBirthday`, the shell quoting and error translation of
`executeAppleScript`, the one-shot permission flag used by
`getContactsData`/`getContactsDataUnlimited`, and the `get_contact_names`
operation.  JavaScript strings are modelled as `List Char`;
the JavaScript string primitives the code relies on (`split` with a
one-character separator, `split` with the regex `[\r\n]+`, truthiness of
`trim()`, `toLowerCase`, `includes`) are embedded as executable Lean
functions with the corresponding semantics.
-/

namespace ContactsMcp

/-- The ASCII part of the whitespace class used by JavaScript
`String.prototype.trim`; the code only ever trims data made of ASCII
fields and CR/LF/TAB separators, so this is the relevant fragment. -/
def jsWhitespace (c : Char) : Bool :=
  c = ' ' || c = '\t' || c = '\n' || c = '\r' || c = '\x0b' || c = '\x0c'

/-- Truthiness of `s.trim()` in JavaScript: the string has some
non-whitespace character.  This is the test used by
`.filter(line => line.trim())` in `parseContactsFromDelimitedData`. -/
def nonblank (l : List Char) : Bool :=
  l.any (fun c => !jsWhitespace c)

/-- JavaScript `s.split(sep)` for a one-character separator `sep`:
every occurrence of `sep` separates two (possibly empty) pieces, and the
empty string splits to `[""]`. -/
def jsSplit (sep : Char) : List Char → List (List Char)
  | [] => [[]]
  | c :: cs =>
    if c = sep then [] :: jsSplit sep cs
    else (jsSplit sep cs).modifyHead (fun piece => c :: piece)

/-- A parsed contact record, as built by `parseContactsFromDelimitedData`
(src/index.js lines 565-574). -/
structure Contact where
  name : List Char
  firstName : List Char
  lastName : List Char
  organization : List Char
  note : List Char
  birthday : List Char
  emails : List (List Char)
  phones : List (List Char)
deriving DecidableEq, Repr

/-- The record constructor of `parseContactsFromDelimitedData`: fields 0-5
verbatim (the JavaScript `fields[i] || ''` maps a missing or empty field
to the empty string), fields 6 and 7 split on `;` and filtered to entries
whose `trim()` is non-empty; an empty field 6 or 7 (falsy in the
JavaScript conditional) yields the empty list. -/
def mkContact (fields : List (List Char)) : Contact where
  name := fields.getD 0 []
  firstName := fields.getD 1 []
  lastName := fields.getD 2 []
  organization := fields.getD 3 []
  note := fields.getD 4 []
  birthday := fields.getD 5 []
  emails :=
    if (fields.getD 6 []).isEmpty then []
    else (jsSplit ';' (fields.getD 6 [])).filter nonblank
  phones :=
    if (fields.getD 7 []).isEmpty then []
    else (jsSplit ';' (fields.getD 7 [])).filter nonblank

/-- The per-line loop of `parseContactsFromDelimitedData`: split each line
on tab; if at least 8 fields result, push a record, otherwise skip the
line and continue with the rest. -/
def parseLines : List (List Char) → List Contact
  | [] => []
  | l :: ls =>
    let fields := jsSplit '\t' l
    if 8 ≤ fields.length then mkContact fields :: parseLines ls
    else parseLines ls

/-- Line extraction of `parseContactsFromDelimitedData`:
`data.split('\n').filter(line => line.trim())`. -/
def linesOf (data : List Char) : List (List Char) :=
  (jsSplit '\n' data).filter nonblank

/-- `parseContactsFromDelimitedData` over a character list. -/
def parseContactsChars (data : List Char) : List Contact :=
  parseLines (linesOf data)

/-- `parseContactsFromDelimitedData` (src/index.js lines 557-584). -/
def parseContactsFromDelimitedData (data : String) : List Contact :=
  parseContactsChars data.toList

/-- A line survives parsing exactly when its tab-split has at least 8
fields. -/
def survivesLine (l : List Char) : Bool :=
  decide (8 ≤ (jsSplit '\t' l).length)

/-- Joining a field list with tab separators: the inverse construction
used by the AppleScript payload (`f1 & tab & f2 & ...`), used to state
the round-trip property. -/
def joinTabs : List (List Char) → List Char
  | [] => []
  | [f] => f
  | f :: rest => f ++ '\t' :: joinTabs rest

/-- A field value free of the delimiter characters tab, newline and
semicolon. -/
def plainField (s : List Char) : Prop :=
  '\t' ∉ s ∧ '\n' ∉ s ∧ ';' ∉ s

instance (s : List Char) : Decidable (plainField s) := by
  unfold plainField; infer_instance

/-- JavaScript `String.prototype.toLowerCase`, character by character
(the contact data is ASCII, where this agrees with `Char.toLower`). -/
def toLowerL (l : List Char) : List Char :=
  l.map Char.toLower

/-- `needle` occurs at the start of `hay`. -/
def beginsWith : List Char → List Char → Bool
  | [], _ => true
  | _ :: _, [] => false
  | a :: as, b :: bs => a = b && beginsWith as bs

/-- JavaScript `hay.includes(needle)`: `needle` occurs contiguously
somewhere in `hay`. -/
def jsIncludes : List Char → List Char → Bool
  | [], needle => beginsWith needle []
  | c :: rest, needle => beginsWith needle (c :: rest) || jsIncludes rest needle

/-- The searchable fields of `matchesQuery` before the falsy filter:
name, firstName, lastName, organization, note, each email, each phone
(src/index.js lines 712-720). -/
def rawSearchFields (c : Contact) : List (List Char) :=
  [c.name, c.firstName, c.lastName, c.organization, c.note] ++
    c.emails ++ c.phones

/-- The `.filter(Boolean)` step: empty (falsy) fields are removed. -/
def searchFieldsFiltered (c : Contact) : List (List Char) :=
  (rawSearchFields c).filter (fun f => !f.isEmpty)

/-- `matchesQuery` (src/index.js lines 708-725): an empty (falsy) query
matches everything; otherwise some non-empty searchable field must
contain the query, both sides lower-cased. -/
def matchesQuery (c : Contact) (query : List Char) : Bool :=
  if query.isEmpty then true
  else
    (searchFieldsFiltered c).any
      (fun field => jsIncludes (toLowerL field) (toLowerL query))

/-- A well-formed candidate record line: eight one-character fields
joined by tabs.  Used to probe the line-splitting behaviour. -/
def eightFields (c : Char) : List Char :=
  joinTabs [[c], [c], [c], [c], [c], [c], [c], [c]]

/-- Milliseconds per day, the JavaScript `1000 * 3600 * 24`. -/
def msPerDay : Int := 86400000

/-- Civil day number of a Gregorian date (days since 1970-01-01, month
1-based): the day arithmetic behind the JavaScript
`Date(year, month, day)` constructor at local midnight. -/
def daysFromCivil (y m d : Int) : Int :=
  let y2 := if m ≤ 2 then y - 1 else y
  let era := y2 / 400
  let yoe := y2 - era * 400
  let mp := if m ≤ 2 then m + 9 else m - 3
  let doy := (153 * mp + 2) / 5 + d - 1
  let doe := yoe * 365 + yoe / 4 - yoe / 100 + doy
  era * 146097 + doe - 719468

/-- Epoch milliseconds of local midnight of a date, month 0-based as in
JavaScript (`new Date(year, month, day).getTime()`). -/
def dateMs (y m0 d : Int) : Int :=
  daysFromCivil y (m0 + 1) d * msPerDay

/-- The parsed birthday as the code observes it: `isUpcomingBirthday`
reads only `getMonth()` (0-based) and `getDate()` of the parsed
`Date`. -/
structure BDate where
  month : Int
  day : Int
deriving DecidableEq, Repr

/-- The clock at the moment of the call: `new Date()` decomposed into
calendar year, month (0-based), day, and the elapsed milliseconds since
local midnight. -/
structure JSNow where
  year : Int
  month : Int
  day : Int
  msOfDay : Int
deriving DecidableEq, Repr

/-- `Math.ceil(a / b)` for integer `a` and positive `b` (the JavaScript
float division is exact at the magnitudes involved). -/
def jsCeil (a b : Int) : Int :=
  -((-a) / b)

/-- Body of `isUpcomingBirthday` after a successful parse (src/index.js
lines 757-772): project the birthday's month/day onto the current year,
roll one year forward if that date is strictly before now, and accept
when the ceiling-rounded day difference lies in `[0, days]`. -/
def isUpcomingBirthdayCore (now : JSNow) (b : BDate) (days : Nat) : Bool :=
  let todayMs := dateMs now.year now.month now.day + now.msOfDay
  let thisYearMs := dateMs now.year b.month b.day
  let birthdayMs :=
    if thisYearMs < todayMs then dateMs (now.year + 1) b.month b.day
    else thisYearMs
  let timeDiff := birthdayMs - todayMs
  let daysDiff := jsCeil timeDiff msPerDay
  decide (0 ≤ daysDiff) && decide (daysDiff ≤ (days : Int))

/-- `isUpcomingBirthday` (src/index.js lines 753-776).  The JavaScript
`new Date(birthday)` text parser is a platform library, so it enters the
model as the `parseDate` parameter.  An unparsable text gives `NaN`
month/day values in the code, making every comparison false so that the
function returns false; this observable behaviour is the `none` branch.
The guard `!birthday || !days || birthday === ""` rejects an empty text
and a zero (falsy) window before parsing. -/
def isUpcomingBirthday (parseDate : List Char → Option BDate) (now : JSNow)
    (birthday : List Char) (days : Nat) : Bool :=
  if birthday.isEmpty || days == 0 then false
  else
    match parseDate birthday with
    | none => false
    | some b => isUpcomingBirthdayCore now b days


/-- The single-quote character. -/
def squote : Char := Char.ofNat 39

/-- The backslash character. -/
def bslash : Char := Char.ofNat 92

/-- The replacement performed by `executeAppleScript` (src/index.js line
203) on the script payload: every single quote becomes the
four-character sequence quote, backslash, quote, quote — close the shell
quote, insert an escaped quote, reopen the quote. -/
def escapeSingleQuotes : List Char → List Char
  | [] => []
  | c :: cs =>
    (if c = squote then [squote, bslash, squote, squote] else [c]) ++
      escapeSingleQuotes cs

/-- POSIX shell recognition of one command word, restricted to the
constructs that occur in the built command line: literal characters,
single-quoted segments, backslash escapes outside quotes, and the space
that terminates the word.  The flag says whether scanning starts inside
a single-quoted segment.  Returns the word's literal value (what the
invoked program receives) and the unconsumed input; an unterminated
quote gives `none`. -/
def shellWord : Bool → List Char → Option (List Char × List Char)
  | true, [] => none
  | false, [] => some ([], [])
  | true, c :: rest =>
    if c = squote then shellWord false rest
    else (shellWord true rest).map (fun p => (c :: p.1, p.2))
  | false, c :: rest =>
    if c = ' ' then some ([], rest)
    else if c = squote then shellWord true rest
    else if c = bslash then
      match rest with
      | [] => some ([], [])
      | d :: rest2 => (shellWord false rest2).map (fun p => (d :: p.1, p.2))
    else (shellWord false rest).map (fun p => (c :: p.1, p.2))

/-- The shell text following `osascript -e ` in the command built by
`executeAppleScript`: the escaped payload inside single quotes, then
` 2>/dev/null`. -/
def argRegionChars (script : List Char) : List Char :=
  squote :: (escapeSingleQuotes script ++ squote :: ' ' ::
    ['2', '>', '/', 'd', 'e', 'v', '/', 'n', 'u', 'l', 'l'])

/-- The full command string `osascript -e '<escaped>' 2>/dev/null`. -/
def shellCommandChars (script : List Char) : List Char :=
  ['o', 's', 'a', 's', 'c', 'r', 'i', 'p', 't', ' ', '-', 'e', ' '] ++
    argRegionChars script

/-- Outcome of the external `execSync` invocation: either stdout text,
or a failure carrying the exit status and whatever partial
stdout/stderr/message the exception object exposes. -/
inductive ExecOutcome where
  | success (stdout : String)
  | failure (status : Int) (stdout : String) (stderr : String)
      (message : String)

/-- Observable behaviour of `executeAppleScript`: the value returned or
error thrown, and the diagnostic lines written to stderr. -/
structure ExecResult where
  outcome : Except String String
  logs : List String
deriving Repr

/-- The JavaScript fallback chain `error.stdout || error.stderr ||
error.message` (empty strings are falsy). -/
def errorDetails (stdout stderr message : String) : String :=
  if stdout ≠ "" then stdout
  else if stderr ≠ "" then stderr
  else message

/-- `script.substring(0, 200)` followed by the literal ellipsis, as
logged on failure. -/
def scriptPreview (script : String) : String :=
  String.mk (script.toList.take 200) ++ "..."

/-- `executeAppleScript` (src/index.js lines 199-217): on success the
trimmed stdout is returned; on non-zero exit the raw details are logged
to stderr and a fresh error carrying only the exit code is thrown. -/
def executeAppleScript (script : String) (o : ExecOutcome) : ExecResult :=
  match o with
  | .success out => { outcome := .ok out.trim, logs := [] }
  | .failure status out err msg =>
    { outcome := .error ("Failed to execute AppleScript (exit code: " ++
        toString status ++ ")")
      logs := ["AppleScript execution failed (exit code: " ++
          toString status ++ "): " ++ errorDetails out err msg,
        "Script was: " ++ scriptPreview script] }

/-- Modelled from the spec and the script text of `getContactNames`
(src/index.js lines 322-326): the AppleScript payload hard-codes
`(name of person 1) & return & (name of person 2) & return &
(name of person 3)`, so against an address book with at least three
entries the interpreter returns the first three names joined by
carriage returns (the AppleScript `return` constant). -/
def namesScriptOutput (book : List (List Char)) : List Char :=
  book.getD 0 [] ++ '\r' :: book.getD 1 [] ++ '\r' :: book.getD 2 []

/-- JavaScript `result.split(/[\r\n]+/)`: a maximal run of CR/LF
characters is one separator.  The flag records whether the scanner is
currently inside a separator run. -/
def splitCrlfAux : Bool → List Char → List (List Char)
  | _, [] => [[]]
  | inSep, c :: cs =>
    if c = '\r' || c = '\n' then
      if inSep then splitCrlfAux true cs
      else [] :: splitCrlfAux true cs
    else (splitCrlfAux false cs).modifyHead (fun piece => c :: piece)

/-- `result.split(/[\r\n]+/)` from the start of the text. -/
def splitCrlfRuns (l : List Char) : List (List Char) :=
  splitCrlfAux false l

/-- Decimal numeral of a natural number, for the `${index + 1}`
numbering. -/
def natChars (n : Nat) : List Char :=
  (toString n).toList

/-- `getContactNames` (src/index.js lines 317-355): the requested limit
defaults to 5 when absent (zero models a missing/falsy argument), the
fixed script output is split on CR/LF runs, blank entries are dropped,
and each name is numbered `${index + 1}. ${name}`.  The computed limit
is never used by the script. -/
def getContactNames (limit : Nat) (book : List (List Char)) :
    List (List Char) :=
  let _requested := if limit = 0 then 5 else limit
  let names := (splitCrlfRuns (namesScriptOutput book)).filter nonblank
  names.enum.map (fun p => natChars (p.1 + 1) ++ '.' :: ' ' :: p.2)

/-- Initial value of `this.permissionsChecked` (src/index.js line 10). -/
def initialPermissionsChecked : Bool := false

/-- Observable effect of one gated data operation on the permission
flag. -/
structure GateStep where
  newFlag : Bool
  checkRan : Bool
  proceeded : Bool
deriving DecidableEq, Repr

/-- The gate at the top of `getContactsData` and
`getContactsDataUnlimited` (src/index.js lines 444-455, 586-597): when
the flag is unset, run `checkPermissions()`; cache only success; rethrow
on failure without touching the flag; when the flag is set, skip the
check entirely. -/
def gateStep (flag : Bool) (checkSucceeds : Bool) : GateStep :=
  if flag then { newFlag := flag, checkRan := false, proceeded := true }
  else if checkSucceeds then
    { newFlag := true, checkRan := true, proceeded := true }
  else { newFlag := flag, checkRan := true, proceeded := false }

/-- The flag across a process lifetime: fold of gated operations over
the successive permission-check outcomes. -/
def runGate (flag : Bool) (outcomes : List Bool) : Bool :=
  outcomes.foldl (fun fl oc => (gateStep fl oc).newFlag) flag

lemma jsSplit_ne_nil (sep : Char) (l : List Char) : jsSplit sep l ≠ [] := by
  induction l with
  | nil => simp [jsSplit]
  | cons c cs ih =>
    by_cases h : c = sep
    · simp [jsSplit, h]
    · simp only [jsSplit, h, if_false]
      cases e : jsSplit sep cs with
      | nil => exact absurd e ih
      | cons hd tl => simp [List.modifyHead]

lemma jsSplit_append (sep : Char) {a : List Char} (r : List Char)
    (h : sep ∉ a) :
    jsSplit sep (a ++ r) =
      (jsSplit sep r).modifyHead (fun piece => a ++ piece) := by
  induction a with
  | nil =>
    cases e : jsSplit sep r with
    | nil => exact absurd e (jsSplit_ne_nil sep r)
    | cons hd tl => simp [e, List.modifyHead]
  | cons c cs ih =>
    have hc : ¬ c = sep := fun hh => h (by simp [hh])
    have hcs : sep ∉ cs := fun hh => h (List.mem_cons_of_mem _ hh)
    cases e : jsSplit sep r with
    | nil => exact absurd e (jsSplit_ne_nil sep r)
    | cons hd tl =>
      simp only [List.cons_append, jsSplit, hc, if_false, List.append_eq,
        ih hcs, e, List.modifyHead]

lemma jsSplit_not_mem (sep : Char) {a : List Char} (h : sep ∉ a) :
    jsSplit sep a = [a] := by
  have := jsSplit_append sep ([] : List Char) h
  simpa [jsSplit, List.modifyHead] using this

lemma jsSplit_sep_append (sep : Char) {a : List Char} (r : List Char)
    (h : sep ∉ a) :
    jsSplit sep (a ++ sep :: r) = a :: jsSplit sep r := by
  rw [jsSplit_append sep _ h]
  cases e : jsSplit sep (sep :: r) with
  | nil => exact absurd e (jsSplit_ne_nil sep _)
  | cons hd tl =>
    have : jsSplit sep (sep :: r) = [] :: jsSplit sep r := by
      simp [jsSplit]
    rw [e] at this
    cases this
    simp [List.modifyHead]

lemma mem_joinTabs_of_mem {c : Char} {s : List Char}
    {fs : List (List Char)} (hs : s ∈ fs) (hc : c ∈ s) :
    c ∈ joinTabs fs := by
  induction fs with
  | nil => cases hs
  | cons a rest ih =>
    cases rest with
    | nil =>
      rcases List.mem_singleton.mp hs with rfl
      simpa [joinTabs] using hc
    | cons b rest2 =>
      rcases List.mem_cons.mp hs with rfl | hs2
      · simp [joinTabs, List.mem_append, hc]
      · simp [joinTabs, List.mem_append, List.mem_cons, ih hs2]

lemma not_mem_joinTabs {x : Char} {fs : List (List Char)}
    (hx : x ≠ '\t') (h : ∀ s ∈ fs, x ∉ s) : x ∉ joinTabs fs := by
  induction fs with
  | nil => simp [joinTabs]
  | cons a rest ih =>
    cases rest with
    | nil => simpa [joinTabs] using h a (List.mem_singleton_self a)
    | cons b rest2 =>
      have ha := h a (List.mem_cons_self a _)
      have hrest := ih (fun s hs => h s (List.mem_cons_of_mem _ hs))
      simp [joinTabs, List.mem_append, List.mem_cons, ha, hx, hrest]

lemma jsSplit_tab_joinTabs {fs : List (List Char)} (hne : fs ≠ [])
    (htab : ∀ x ∈ fs, '\t' ∉ x) :
    jsSplit '\t' (joinTabs fs) = fs := by
  induction fs with
  | nil => exact absurd rfl hne
  | cons a rest ih =>
    cases rest with
    | nil =>
      simpa [joinTabs] using
        jsSplit_not_mem '\t' (htab a (List.mem_singleton_self a))
    | cons b rest2 =>
      have step : joinTabs (a :: b :: rest2) =
          a ++ '\t' :: joinTabs (b :: rest2) := rfl
      rw [step, jsSplit_sep_append '\t' _ (htab a (List.mem_cons_self a _)),
        ih (by simp) (fun x hx => htab x (List.mem_cons_of_mem _ hx))]

lemma nonblank_joinTabs {fs : List (List Char)} {s : List Char}
    (hs : s ∈ fs) (hb : nonblank s = true) :
    nonblank (joinTabs fs) = true := by
  rcases List.any_eq_true.mp hb with ⟨c, hc, hw⟩
  exact List.any_eq_true.mpr ⟨c, mem_joinTabs_of_mem hs hc, hw⟩

lemma parseLines_eq_filter_map (ls : List (List Char)) :
    parseLines ls =
      (ls.filter survivesLine).map (fun l => mkContact (jsSplit '\t' l)) := by
  induction ls with
  | nil => rfl
  | cons l ls ih =>
    by_cases h : 8 ≤ (jsSplit '\t' l).length
    · simp [parseLines, List.filter_cons, survivesLine, h, ih]
    · simp [parseLines, List.filter_cons, survivesLine, h, ih]

lemma parseLines_append (a b : List (List Char)) :
    parseLines (a ++ b) = parseLines a ++ parseLines b := by
  induction a with
  | nil => rfl
  | cons l ls ih =>
    by_cases h : 8 ≤ (jsSplit '\t' l).length
    · simp [parseLines, h, ih]
    · simp [parseLines, h, ih]

/-- C1: `parseContactsFromDelimitedData` is a total function into record
sequences (it never throws, being defined by structural recursion):
empty input yields the empty sequence; the result only depends on the
lines whose tab-split has at least 8 fields, so malformed lines are
excluded and do not affect the parsing of any other line; and inserting
a line with fewer than 8 tab-fields anywhere leaves the result
unchanged. -/
theorem parse_skips_short_lines_without_side_effects :
    parseContactsFromDelimitedData "" = [] ∧
    (∀ data : String,
      parseContactsFromDelimitedData data =
        parseLines ((linesOf data.toList).filter survivesLine)) ∧
    (∀ pre post bad,
      parseLines (pre ++ (if 8 ≤ (jsSplit '\t' bad).length then
          ([] : List (List Char)) else [bad]) ++ post) =
        parseLines (pre ++ post)) := by
  refine ⟨rfl, ?_, ?_⟩
  · intro data
    rw [parseContactsFromDelimitedData, parseContactsChars,
      parseLines_eq_filter_map, parseLines_eq_filter_map, List.filter_filter]
    simp
  · intro pre post bad
    by_cases h : 8 ≤ (jsSplit '\t' bad).length
    · simp [h]
    · simp only [h, if_false]
      rw [parseLines_append, parseLines_append, parseLines_append]
      simp [parseLines, h]

/-- C10: `parseContactsFromDelimitedData` preserves source order: the
result is exactly the map of the record constructor over the in-order
sublist of non-blank lines whose tab-split has at least 8 fields, so the
k-th record always comes from the k-th surviving line. -/
theorem parse_preserves_source_order (data : String) :
    parseContactsFromDelimitedData data =
      ((linesOf data.toList).filter survivesLine).map
        (fun l => mkContact (jsSplit '\t' l)) := by
  rw [parseContactsFromDelimitedData, parseContactsChars,
    parseLines_eq_filter_map]

lemma parse_line_of_8 {fs : List (List Char)} (hlen : fs.length = 8)
    (htab : ∀ x ∈ fs, '\t' ∉ x) (hnl : ∀ x ∈ fs, '\n' ∉ x)
    (hblank : nonblank (joinTabs fs) = true) :
    parseContactsChars (joinTabs fs) = [mkContact fs] := by
  have hne : fs ≠ [] := by intro h; simp [h] at hlen
  have hnlj : '\n' ∉ joinTabs fs := not_mem_joinTabs (by decide) hnl
  unfold parseContactsChars linesOf
  rw [jsSplit_not_mem '\n' hnlj]
  have hfilter : List.filter nonblank [joinTabs fs] = [joinTabs fs] := by
    simp [List.filter, hblank]
  rw [hfilter]
  simp [parseLines, jsSplit_tab_joinTabs hne htab, hlen]

/-- C2: round-trip through the delimited format.  For delimiter-free
fields with non-blank email/phone entries, parsing the single tab-joined
line `[n, f, l, o, nt, bd, e1;e2, p1]` yields exactly one record carrying
the fields verbatim with `emails = [e1, e2]` and `phones = [p1]`; an
empty email field (respectively phone field) yields an empty `emails`
(respectively `phones`) list. -/
theorem parse_single_line_round_trip
    (n f l o nt bd e1 e2 p1 : List Char)
    (hn : plainField n) (hf : plainField f) (hl : plainField l)
    (ho : plainField o) (hnt : plainField nt) (hbd : plainField bd)
    (he1 : plainField e1) (he2 : plainField e2) (hp1 : plainField p1)
    (hb1 : nonblank e1 = true) (hb2 : nonblank e2 = true)
    (hb3 : nonblank p1 = true) :
    parseContactsChars (joinTabs [n, f, l, o, nt, bd, e1 ++ ';' :: e2, p1]) =
      [⟨n, f, l, o, nt, bd, [e1, e2], [p1]⟩] ∧
    parseContactsChars (joinTabs [n, f, l, o, nt, bd, [], p1]) =
      [⟨n, f, l, o, nt, bd, [], [p1]⟩] ∧
    parseContactsChars (joinTabs [n, f, l, o, nt, bd, e1 ++ ';' :: e2, []]) =
      [⟨n, f, l, o, nt, bd, [e1, e2], []⟩] := by
  have hp1ne : p1.isEmpty = false := by
    cases p1 with
    | nil => simp [nonblank] at hb3
    | cons c cs => rfl
  have hp1nil : ¬ p1 = [] := by
    cases p1 with
    | nil => simp [nonblank] at hb3
    | cons c cs => simp
  have he6ne : (e1 ++ ';' :: e2).isEmpty = false := by
    cases e1 <;> rfl
  have hsplit6 : jsSplit ';' (e1 ++ ';' :: e2) = [e1, e2] := by
    rw [jsSplit_sep_append ';' _ he1.2.2, jsSplit_not_mem ';' he2.2.2]
  have hsplit7 : jsSplit ';' p1 = [p1] := jsSplit_not_mem ';' hp1.2.2
  have hb6 : nonblank (e1 ++ ';' :: e2) = true := by
    unfold nonblank at hb1 ⊢
    rw [List.any_append, hb1, Bool.true_or]
  refine ⟨?_, ?_, ?_⟩
  · rw [@parse_line_of_8 [n, f, l, o, nt, bd, e1 ++ ';' :: e2, p1]
      rfl ?_ ?_ ?_]
    · simp only [mkContact, List.getD, List.getElem?_cons_zero,
        List.getElem?_cons_succ, Option.getD_some, he6ne, hp1ne,
        Bool.false_eq_true, if_false, hsplit6, hsplit7]
      simp [List.filter, hsplit6, hsplit7, hb1, hb2, hb3, hp1nil]
    · intro x hx
      simp only [List.mem_cons, List.not_mem_nil, or_false] at hx
      rcases hx with rfl | rfl | rfl | rfl | rfl | rfl | rfl | rfl
      · exact hn.1
      · exact hf.1
      · exact hl.1
      · exact ho.1
      · exact hnt.1
      · exact hbd.1
      · simp only [List.mem_append, List.mem_cons]
        rintro (h | h | h)
        · exact he1.1 h
        · exact absurd h (by decide)
        · exact he2.1 h
      · exact hp1.1
    · intro x hx
      simp only [List.mem_cons, List.not_mem_nil, or_false] at hx
      rcases hx with rfl | rfl | rfl | rfl | rfl | rfl | rfl | rfl
      · exact hn.2.1
      · exact hf.2.1
      · exact hl.2.1
      · exact ho.2.1
      · exact hnt.2.1
      · exact hbd.2.1
      · simp only [List.mem_append, List.mem_cons]
        rintro (h | h | h)
        · exact he1.2.1 h
        · exact absurd h (by decide)
        · exact he2.2.1 h
      · exact hp1.2.1
    · exact nonblank_joinTabs (by simp) hb3
  · rw [@parse_line_of_8 [n, f, l, o, nt, bd, [], p1] rfl ?_ ?_ ?_]
    · simp only [mkContact, List.getD, List.getElem?_cons_zero,
        List.getElem?_cons_succ, Option.getD_some, List.isEmpty_nil,
        if_true, hp1ne, Bool.false_eq_true, if_false, hsplit7]
      simp [List.filter, hsplit7, hb3, hp1nil]
    · intro x hx
      simp only [List.mem_cons, List.not_mem_nil, or_false] at hx
      rcases hx with rfl | rfl | rfl | rfl | rfl | rfl | rfl | rfl
      · exact hn.1
      · exact hf.1
      · exact hl.1
      · exact ho.1
      · exact hnt.1
      · exact hbd.1
      · simp
      · exact hp1.1
    · intro x hx
      simp only [List.mem_cons, List.not_mem_nil, or_false] at hx
      rcases hx with rfl | rfl | rfl | rfl | rfl | rfl | rfl | rfl
      · exact hn.2.1
      · exact hf.2.1
      · exact hl.2.1
      · exact ho.2.1
      · exact hnt.2.1
      · exact hbd.2.1
      · simp
      · exact hp1.2.1
    · exact nonblank_joinTabs (by simp) hb3
  · rw [@parse_line_of_8 [n, f, l, o, nt, bd, e1 ++ ';' :: e2, []]
      rfl ?_ ?_ ?_]
    · simp only [mkContact, List.getD, List.getElem?_cons_zero,
        List.getElem?_cons_succ, Option.getD_some, he6ne,
        Bool.false_eq_true, if_false, hsplit6, List.isEmpty_nil, if_true]
      simp [List.filter, hsplit6, hb1, hb2]
    · intro x hx
      simp only [List.mem_cons, List.not_mem_nil, or_false] at hx
      rcases hx with rfl | rfl | rfl | rfl | rfl | rfl | rfl | rfl
      · exact hn.1
      · exact hf.1
      · exact hl.1
      · exact ho.1
      · exact hnt.1
      · exact hbd.1
      · simp only [List.mem_append, List.mem_cons]
        rintro (h | h | h)
        · exact he1.1 h
        · exact absurd h (by decide)
        · exact he2.1 h
      · simp
    · intro x hx
      simp only [List.mem_cons, List.not_mem_nil, or_false] at hx
      rcases hx with rfl | rfl | rfl | rfl | rfl | rfl | rfl | rfl
      · exact hn.2.1
      · exact hf.2.1
      · exact hl.2.1
      · exact ho.2.1
      · exact hnt.2.1
      · exact hbd.2.1
      · simp only [List.mem_append, List.mem_cons]
        rintro (h | h | h)
        · exact he1.2.1 h
        · exact absurd h (by decide)
        · exact he2.2.1 h
      · simp
    · exact @nonblank_joinTabs [n, f, l, o, nt, bd, e1 ++ ';' :: e2, []]
        (e1 ++ ';' :: e2) (by simp) hb6

/-- Evaluation of the round-trip theorem on a concrete line. -/
theorem parse_single_line_round_trip_check :
    plainField ['N'] ∧ nonblank ['e'] = true ∧
    parseContactsChars (joinTabs [['N'], ['F'], ['L'], ['O'], ['T'], ['B'],
        ['e'] ++ ';' :: ['g'], ['p']]) =
      [⟨['N'], ['F'], ['L'], ['O'], ['T'], ['B'], [['e'], ['g']], [['p']]⟩] :=
  ⟨by decide, by decide,
    (parse_single_line_round_trip ['N'] ['F'] ['L'] ['O'] ['T'] ['B']
      ['e'] ['g'] ['p'] (by decide) (by decide) (by decide) (by decide)
      (by decide) (by decide) (by decide) (by decide) (by decide)
      (by decide) (by decide) (by decide)).1⟩

lemma beginsWith_iff (needle hay : List Char) :
    beginsWith needle hay = true ↔ ∃ post, hay = needle ++ post := by
  induction needle generalizing hay with
  | nil => simp [beginsWith]
  | cons a as ih =>
    cases hay with
    | nil =>
      simp [beginsWith]
    | cons b bs =>
      simp only [beginsWith, Bool.and_eq_true, decide_eq_true_eq, ih,
        List.cons_append, List.cons.injEq]
      constructor
      · rintro ⟨rfl, post, rfl⟩
        exact ⟨post, rfl, rfl⟩
      · rintro ⟨post, rfl, rfl⟩
        exact ⟨rfl, post, rfl⟩

lemma jsIncludes_iff (hay needle : List Char) :
    jsIncludes hay needle = true ↔ ∃ pre post, hay = pre ++ needle ++ post := by
  induction hay with
  | nil =>
    simp only [jsIncludes, beginsWith_iff]
    constructor
    · rintro ⟨post, h⟩
      exact ⟨[], post, by simpa using h⟩
    · rintro ⟨pre, post, h⟩
      have h2 : pre = [] ∧ needle = [] ∧ post = [] := by simpa using h.symm
      rcases h2 with ⟨rfl, rfl, rfl⟩
      exact ⟨[], rfl⟩
  | cons c rest ih =>
    simp only [jsIncludes, Bool.or_eq_true, beginsWith_iff, ih]
    constructor
    · rintro (⟨post, h⟩ | ⟨pre, post, h⟩)
      · exact ⟨[], post, by simpa using h⟩
      · exact ⟨c :: pre, post, by simp [h]⟩
    · rintro ⟨pre, post, h⟩
      cases pre with
      | nil =>
        exact Or.inl ⟨post, by simpa using h⟩
      | cons p ps =>
        simp only [List.cons_append, List.cons.injEq] at h
        exact Or.inr ⟨ps, post, h.2⟩

/-- C4: `matchesQuery` returns true exactly when the query is empty or
the lower-cased query occurs as a substring of the lower-cased value of
at least one non-empty field among name, firstName, lastName,
organization, note, the emails and the phones. -/
theorem matchesQuery_spec (c : Contact) (query : List Char) :
    matchesQuery c query = true ↔
      query = [] ∨
      ∃ field, field ∈ rawSearchFields c ∧ field ≠ [] ∧
        ∃ pre post, toLowerL field = pre ++ toLowerL query ++ post := by
  unfold matchesQuery
  by_cases hq : query.isEmpty
  · simp [hq, List.isEmpty_iff.mp hq]
  · rw [if_neg hq]
    have hqne : ¬ query = [] := fun h => hq (by simp [h])
    constructor
    · intro h
      rcases List.any_eq_true.mp h with ⟨field, hmemf, hinc⟩
      rcases List.mem_filter.mp hmemf with ⟨hmem, hne⟩
      rcases (jsIncludes_iff _ _).mp hinc with ⟨pre, post, hdecomp⟩
      refine Or.inr ⟨field, hmem, ?_, pre, post, hdecomp⟩
      intro hfnil
      simp [hfnil] at hne
    · rintro (rfl | ⟨field, hmem, hne, pre, post, hdecomp⟩)
      · exact absurd rfl hqne
      · refine List.any_eq_true.mpr ⟨field, List.mem_filter.mpr ⟨hmem, ?_⟩,
          (jsIncludes_iff _ _).mpr ⟨pre, post, hdecomp⟩⟩
        cases field with
        | nil => exact absurd rfl hne
        | cons _ _ => rfl

/-- C3 counterexample: the parser splits on the newline character only.
Two well-formed 8-field records separated by a bare carriage return are
NOT split apart (the claimed run-of-CR/NL splitting would give two
records): the code produces a single record, while the same two records
separated by a newline produce two. -/
theorem cr_separated_records_not_split :
    (parseContactsChars (eightFields 'a' ++ '\r' :: eightFields 'b')).length
      = 1 ∧
    (parseContactsChars (eightFields 'a' ++ '\n' :: eightFields 'b')).length
      = 2 := by
  decide

/-- C3 amended: `parseContactsFromDelimitedData` splits its input into
lines on single newline characters only and discards blank
(whitespace-only) lines.  CRLF-separated input is still split into one
candidate per segment (the carriage return stays attached to the end of
the preceding segment), but segments separated by a bare carriage
return are not split apart and form a single candidate line. -/
theorem newline_only_line_splitting
    (s₁ s₂ : List Char) (h1 : '\n' ∉ s₁) (h2 : '\n' ∉ s₂)
    (hb1 : nonblank s₁ = true) (hb2 : nonblank s₂ = true) :
    linesOf (s₁ ++ '\n' :: s₂) = [s₁, s₂] ∧
    linesOf (s₁ ++ '\r' :: '\n' :: s₂) = [s₁ ++ ['\r'], s₂] ∧
    linesOf (s₁ ++ '\r' :: s₂) = [s₁ ++ '\r' :: s₂] := by
  have hbr : nonblank (s₁ ++ ['\r']) = true := by
    unfold nonblank at hb1 ⊢
    rw [List.any_append, hb1, Bool.true_or]
  have hbrs : nonblank (s₁ ++ '\r' :: s₂) = true := by
    unfold nonblank at hb1 ⊢
    rw [List.any_append, hb1, Bool.true_or]
  refine ⟨?_, ?_, ?_⟩
  · unfold linesOf
    rw [jsSplit_sep_append '\n' _ h1, jsSplit_not_mem '\n' h2]
    simp [List.filter, hb1, hb2]
  · unfold linesOf
    have hsteps : s₁ ++ '\r' :: '\n' :: s₂ = (s₁ ++ ['\r']) ++ '\n' :: s₂ := by
      simp
    have h1r : '\n' ∉ s₁ ++ ['\r'] := by
      simp only [List.mem_append, List.mem_singleton]
      rintro (h | h)
      · exact h1 h
      · exact absurd h (by decide)
    rw [hsteps, jsSplit_sep_append '\n' _ h1r, jsSplit_not_mem '\n' h2]
    simp [List.filter, hbr, hb2]
  · unfold linesOf
    have hnm : '\n' ∉ s₁ ++ '\r' :: s₂ := by
      simp only [List.mem_append, List.mem_cons]
      rintro (h | h | h)
      · exact h1 h
      · exact absurd h (by decide)
      · exact h2 h
    rw [jsSplit_not_mem '\n' hnm]
    simp [List.filter, hbrs]

/-- Evaluation of the amended line-splitting theorem on concrete
segments. -/
theorem newline_only_line_splitting_check :
    '\n' ∉ (['a'] : List Char) ∧ nonblank ['a'] = true ∧
    linesOf (['a'] ++ '\r' :: (['b'] : List Char)) = [['a', '\r', 'b']] :=
  ⟨by decide, by decide,
    (newline_only_line_splitting ['a'] ['b'] (by decide) (by decide)
      (by decide) (by decide)).2.2⟩

/-- C5 counterexample: on 2026-10-12 (month 9 and day 12 in 0-based
JavaScript convention, at midnight), a birthday text that parses to
month 9 / day 12 — today's month and day — with `windowDays = 0` yields
false, not true as claimed: a zero window is falsy in the guard
`!birthday || !days || birthday === ""` and short-circuits the whole
check. -/
theorem birthday_today_window_zero_counterexample :
    (fun (_ : List Char) => some (⟨9, 12⟩ : BDate)) ['x'] = some ⟨9, 12⟩ ∧
    (⟨2026, 9, 12, 0⟩ : JSNow).month = 9 ∧
    (⟨2026, 9, 12, 0⟩ : JSNow).day = 12 ∧
    isUpcomingBirthday (fun _ => some ⟨9, 12⟩) ⟨2026, 9, 12, 0⟩ ['x'] 0
      = false :=
  ⟨rfl, rfl, rfl, rfl⟩

/-- C5 amended: `isUpcomingBirthday` returns false whenever
`windowDays = 0` (even for today's month/day, since a zero window is
falsy); it returns false when the birthday's projection onto the current
year falls exactly one day after the window; and it returns false when
the birthday text is unparsable. -/
theorem isUpcomingBirthday_amended :
    (∀ (p : List Char → Option BDate) (now : JSNow) (s : List Char),
      isUpcomingBirthday p now s 0 = false) ∧
    (∀ (p : List Char → Option BDate) (now : JSNow) (s : List Char)
      (days : Nat),
      p s = none → isUpcomingBirthday p now s days = false) ∧
    (∀ (p : List Char → Option BDate) (now : JSNow) (s : List Char)
      (b : BDate) (days : Nat),
      p s = some b → 0 ≤ now.msOfDay → now.msOfDay < msPerDay →
      dateMs now.year b.month b.day =
        dateMs now.year now.month now.day + ((days : Int) + 1) * msPerDay →
      isUpcomingBirthday p now s days = false) := by
  refine ⟨?_, ?_, ?_⟩
  · intro p now s
    simp [isUpcomingBirthday]
  · intro p now s days hp
    unfold isUpcomingBirthday
    rw [hp]
    by_cases h : (s.isEmpty || days == 0) = true
    · simp [h]
    · simp [h]
  · intro p now s b days hp htod0 htod1 hdist
    by_cases hdays : days = 0
    · subst hdays
      simp [isUpcomingBirthday]
    · unfold isUpcomingBirthday
      rw [hp]
      have hd0 : (days == 0) = false := by
        simpa using hdays
      cases hs : s.isEmpty with
      | true => simp [hs]
      | false =>
        rw [if_neg (by simp [hd0])]
        show isUpcomingBirthdayCore now b days = false
        have hnotroll :
            ¬ (dateMs now.year b.month b.day <
              dateMs now.year now.month now.day + now.msOfDay) := by
          rw [hdist]
          have hM : (0 : Int) < msPerDay := by decide
          have h1 : (1 : Int) ≤ (days : Int) + 1 := by omega
          have hle : msPerDay ≤ ((days : Int) + 1) * msPerDay :=
            le_mul_of_one_le_left hM.le h1
          have : now.msOfDay < ((days : Int) + 1) * msPerDay :=
            lt_of_lt_of_le htod1 hle
          omega
        have hceil :
            jsCeil (dateMs now.year b.month b.day -
                (dateMs now.year now.month now.day + now.msOfDay)) msPerDay
              = (days : Int) + 1 := by
          unfold jsCeil
          have harg :
              -(dateMs now.year b.month b.day -
                (dateMs now.year now.month now.day + now.msOfDay)) =
              now.msOfDay + msPerDay * (-((days : Int) + 1)) := by
            rw [hdist]; ring
          rw [harg,
            Int.add_mul_ediv_left _ _ (by decide : msPerDay ≠ (0 : Int)),
            Int.ediv_eq_zero_of_lt htod0 htod1]
          ring
        have hnotle : ¬ ((days : Int) + 1 ≤ (days : Int)) := by omega
        simp only [isUpcomingBirthdayCore, if_neg hnotroll, hceil]
        simp [hnotle]

/-- Evaluation of the amended birthday theorem: birthday 2026-10-14 seen
from 2026-10-12 midnight with a one-day window is one day past the
window, and the code rejects it. -/
theorem isUpcomingBirthday_amended_check :
    (fun (_ : List Char) => some (⟨9, 14⟩ : BDate)) ['x'] = some ⟨9, 14⟩ ∧
    dateMs 2026 9 14 = dateMs 2026 9 12 + ((1 : Int) + 1) * msPerDay ∧
    isUpcomingBirthday (fun _ => some ⟨9, 14⟩) ⟨2026, 9, 12, 0⟩ ['x'] 1
      = false :=
  ⟨rfl, by decide,
    isUpcomingBirthday_amended.2.2 (fun _ => some ⟨9, 14⟩) ⟨2026, 9, 12, 0⟩
      ['x'] ⟨9, 14⟩ 1 rfl (by decide) (by decide) (by decide)⟩

lemma shellWord_false_space (rest : List Char) :
    shellWord false (' ' :: rest) = some ([], rest) := by
  rw [shellWord.eq_def]
  rfl

lemma shellWord_false_squote (rest : List Char) :
    shellWord false (squote :: rest) = shellWord true rest := by
  rw [shellWord.eq_def]
  rfl

lemma shellWord_false_bslash (d : Char) (rest : List Char) :
    shellWord false (bslash :: d :: rest) =
      (shellWord false rest).map (fun p => (d :: p.1, p.2)) := by
  rw [shellWord.eq_def]
  rfl

lemma shellWord_true_squote (rest : List Char) :
    shellWord true (squote :: rest) = shellWord false rest := by
  rw [shellWord.eq_def]
  rfl

lemma shellWord_true_lit (c : Char) (rest : List Char) (h : ¬ c = squote) :
    shellWord true (c :: rest) =
      (shellWord true rest).map (fun p => (c :: p.1, p.2)) := by
  rw [shellWord.eq_def]
  simp [h]

lemma shellWord_escape (s tail : List Char) :
    shellWord true (escapeSingleQuotes s ++ squote :: tail) =
      (shellWord false tail).map (fun p => (s ++ p.1, p.2)) := by
  induction s with
  | nil =>
    rw [show escapeSingleQuotes [] ++ squote :: tail = squote :: tail
      from rfl, shellWord_true_squote]
    cases e : shellWord false tail with
    | none => simp [e]
    | some p => simp [e]
  | cons c cs ih =>
    by_cases hc : c = squote
    · subst hc
      have hshape : escapeSingleQuotes (squote :: cs) ++ squote :: tail =
          squote :: bslash :: squote :: squote ::
            (escapeSingleQuotes cs ++ squote :: tail) := by
        simp [escapeSingleQuotes]
      rw [hshape, shellWord_true_squote, shellWord_false_bslash,
        shellWord_false_squote, ih]
      cases e : shellWord false tail with
      | none => simp [e]
      | some p => simp [e]
    · have hshape : escapeSingleQuotes (c :: cs) ++ squote :: tail =
          c :: (escapeSingleQuotes cs ++ squote :: tail) := by
        simp [escapeSingleQuotes, hc]
      rw [hshape, shellWord_true_lit c _ hc, ih]
      cases e : shellWord false tail with
      | none => simp [e]
      | some p => simp [e]

/-- C6: `executeAppleScript` embeds the payload in a single-quoted shell
argument after replacing each single quote by the four-character
sequence quote-backslash-quote-quote; for every payload (in particular
any payload containing single quotes), the shell word recognizer
applied to the built argument region recovers exactly the original
payload as the argument the interpreter receives, with the quoting
intact and the redirection text left over. -/
theorem shell_escaping_preserves_payload (script : List Char) :
    escapeSingleQuotes [squote] = [squote, bslash, squote, squote] ∧
    shellWord false (argRegionChars script) =
      some (script,
        ['2', '>', '/', 'd', 'e', 'v', '/', 'n', 'u', 'l', 'l']) ∧
    shellCommandChars script =
      ['o', 's', 'a', 's', 'c', 'r', 'i', 'p', 't', ' ', '-', 'e', ' '] ++
        argRegionChars script := by
  refine ⟨rfl, ?_, rfl⟩
  unfold argRegionChars
  rw [shellWord_false_squote, shellWord_escape, shellWord_false_space]
  simp

/-- C7: on every non-zero process exit, `executeAppleScript` throws an
error whose text is built from the exit code alone — identical whatever
the process's stdout/stderr/message were — while the raw details go
only to the diagnostic log lines. -/
theorem exec_failure_error_carries_only_exit_code
    (script : String) (status : Int)
    (out err msg out2 err2 msg2 : String) :
    (executeAppleScript script (.failure status out err msg)).outcome =
      .error ("Failed to execute AppleScript (exit code: " ++
        toString status ++ ")") ∧
    (executeAppleScript script (.failure status out err msg)).outcome =
      (executeAppleScript script (.failure status out2 err2 msg2)).outcome ∧
    (executeAppleScript script (.failure status out err msg)).logs =
      ["AppleScript execution failed (exit code: " ++ toString status ++
          "): " ++ errorDetails out err msg,
        "Script was: " ++ scriptPreview script] :=
  ⟨rfl, rfl, rfl⟩

/-- C8: `get_contact_names` with `limit = 5` against a five-contact
address book returns three numbered names, not five: the AppleScript
payload hard-codes persons 1-3 and ignores the computed limit,
contradicting the tool's own schema and the specification. -/
theorem get_contact_names_ignores_limit :
    getContactNames 5 [['A'], ['B'], ['C'], ['D'], ['E']] =
      [['1', '.', ' ', 'A'], ['2', '.', ' ', 'B'], ['3', '.', ' ', 'C']] ∧
    (getContactNames 5 [['A'], ['B'], ['C'], ['D'], ['E']]).length ≠ 5 := by
  refine ⟨by decide, by decide⟩

/-- C9: the permission flag starts false; a gated operation with an
unset flag runs the check and caches exactly a success (a failure
leaves the flag unset); with the flag set the check is skipped, the
operation proceeds, and the flag stays set — and stays set across any
sequence of further gated operations. -/
theorem permission_flag_one_shot :
    initialPermissionsChecked = false ∧
    (∀ oc : Bool, (gateStep false oc).newFlag = oc ∧
      (gateStep false oc).checkRan = true) ∧
    (∀ oc : Bool, (gateStep true oc).checkRan = false ∧
      (gateStep true oc).newFlag = true ∧
      (gateStep true oc).proceeded = true) ∧
    (∀ outcomes : List Bool, runGate true outcomes = true) := by
  refine ⟨rfl, by decide, by decide, ?_⟩
  intro outcomes
  induction outcomes with
  | nil => rfl
  | cons oc rest ih =>
    simpa [runGate, List.foldl, gateStep] using ih

end ContactsMcp
